import Mathlib

/-!
Shallow embedding of the note-parsing and link-graph engine of the
`commitpaper` repository (files `src-tauri/src/services/parser.rs`,
`src-tauri/src/services/linker.rs`, `src-tauri/src/services/indexer.rs`,
`src-tauri/src/commands/vault.rs`).

Rust strings are modelled as `List Char`; `HashMap` is modelled as an
association list with replace-on-insert, iterated in insertion order
(the Rust iteration order is arbitrary; the model fixes one order).
-/

deriving instance DecidableEq for Except

namespace Commitpaper

/-- `str::trim_start`: drop leading whitespace (Rust's Unicode
`White_Space` is modelled by `Char.isWhitespace`). -/
def trimLeadL (l : List Char) : List Char := l.dropWhile Char.isWhitespace

/-- `str::trim`: drop leading and trailing whitespace. -/
def trimL (l : List Char) : List Char :=
  ((l.dropWhile Char.isWhitespace).reverse.dropWhile Char.isWhitespace).reverse

/-- `link.split('|').next()`: the prefix of `l` before the first pipe
(the whole of `l` when there is no pipe). -/
def beforePipe (l : List Char) : List Char := l.takeWhile (fun c => c ≠ '|')

/-- The guarded target construction of `extract_wikilinks`
(`parser.rs:54-60`): the accumulated link must be non-empty, and the
trimmed before-pipe part must be non-empty, otherwise no link is emitted. -/
def mkTarget (link : List Char) : Option (List Char) :=
  if link = [] then none
  else
    let t := trimL (beforePipe link)
    if t = [] then none else some t

/-- The scanner state of `extract_wikilinks` (`parser.rs:35-64`).
`outside` = scanning plain text; `sawOpen` = the previous character was
`[` and the scanner is peeking for a second `[`; `inside acc` = inside
`[[...]]` with `acc` accumulated so far; `sawClose acc` = the previous
character inside a link was `]` and the scanner is peeking for a second
`]`. -/
inductive WlMode where
  | outside
  | sawOpen
  | inside (acc : List Char)
  | sawClose (acc : List Char)
  deriving Repr, DecidableEq

/-- The character scan of `extract_wikilinks` (`parser.rs:35-64`), one
character per step (Rust's `peek` becomes the `sawOpen`/`sawClose`
states).  On a closing `]]` the accumulated link is emitted through
`mkTarget`; input ending inside a link emits nothing (an unterminated
`[[` is dropped). -/
def wlScan : List Char → WlMode → List (List Char)
  | [], _ => []
  | c :: rest, .outside => wlScan rest (if c = '[' then .sawOpen else .outside)
  | c :: rest, .sawOpen => wlScan rest (if c = '[' then .inside [] else .outside)
  | c :: rest, .inside acc =>
      wlScan rest (if c = ']' then .sawClose acc else .inside (acc ++ [c]))
  | c :: rest, .sawClose acc =>
      if c = ']' then
        (match mkTarget acc with
         | some t => [t]
         | none => []) ++ wlScan rest .outside
      else wlScan rest (.inside (acc ++ [']', c]))

/-- `extract_wikilinks` over a whole text. -/
def extractWikilinks (content : List Char) : List (List Char) :=
  wlScan content .outside

/-- The same scan as `wlScan` but emitting, for every closed `[[...]]`,
the trimmed before-pipe substring unconditionally (no emptiness guard).
This is the scan described literally by the specification's words; it is
compared against `wlScan` (the code) in the refinement theorems. -/
def refWlScan : List Char → WlMode → List (List Char)
  | [], _ => []
  | c :: rest, .outside => refWlScan rest (if c = '[' then .sawOpen else .outside)
  | c :: rest, .sawOpen => refWlScan rest (if c = '[' then .inside [] else .outside)
  | c :: rest, .inside acc =>
      refWlScan rest (if c = ']' then .sawClose acc else .inside (acc ++ [c]))
  | c :: rest, .sawClose acc =>
      if c = ']' then trimL (beforePipe acc) :: refWlScan rest .outside
      else refWlScan rest (.inside (acc ++ [']', c]))

/-- Links as described by the spec sentence of C6 (no emptiness guard). -/
def refWikilinks (content : List Char) : List (List Char) :=
  refWlScan content .outside

/-- `trimmed.starts_with("---")`. -/
def startsDashes : List Char → Bool
  | '-' :: '-' :: '-' :: _ => true
  | _ => false

/-- `str::find(pat)`: index (here: character index) of the first
occurrence of `pat` in `l`, if any. -/
def findSub (pat : List Char) : List Char → Option Nat
  | [] => if pat.isPrefixOf ([] : List Char) then some 0 else none
  | c :: rest =>
      if pat.isPrefixOf (c :: rest) then some 0
      else (findSub pat rest).map (· + 1)

/-- The pattern `"\n---"` searched for by `extract_frontmatter`. -/
def nlDashes : List Char := '\n' :: '-' :: '-' :: '-' :: []

/-- Split a character list on a separator character (plain split, keeping
empty pieces). -/
def splitOnCharGo (sep : Char) : List Char → List Char → List (List Char)
  | [], acc => [acc.reverse]
  | c :: rest, acc =>
      if c = sep then acc.reverse :: splitOnCharGo sep rest []
      else splitOnCharGo sep rest (c :: acc)

def splitOnChar (sep : Char) (l : List Char) : List (List Char) :=
  splitOnCharGo sep l []

/-- `str::split_once(sep)`. -/
def splitOnceChar (sep : Char) : List Char → Option (List Char × List Char)
  | [] => none
  | c :: rest =>
      if c = sep then some ([], rest)
      else (splitOnceChar sep rest).map (fun p => (c :: p.1, p.2))

/-- `str::trim_start_matches(c)`: remove every leading occurrence of `c`. -/
def dropLeadChar (c : Char) (l : List Char) : List Char :=
  l.dropWhile (fun x => x = c)

/-- `str::trim_end_matches(c)`: remove every trailing occurrence of `c`. -/
def dropTrailChar (c : Char) (l : List Char) : List Char :=
  (l.reverse.dropWhile (fun x => x = c)).reverse

/-- `str::trim_matches(c)`: both ends. -/
def trimMatchesChar (c : Char) (l : List Char) : List Char :=
  dropTrailChar c (dropLeadChar c l)

def quoteChar : Char := Char.ofNat 34

def apostChar : Char := Char.ofNat 39

/-- The `tags` value parsing of `extract_frontmatter` (`parser.rs:89-97`):
strip brackets, split on commas, trim and unquote each piece, keep the
non-empty ones (appended in order, no deduplication). -/
def fmTagsOfValue (value : List Char) : List String :=
  let tagStr := dropTrailChar ']' (dropLeadChar '[' value)
  (splitOnChar ',' tagStr).foldl
    (fun acc tag =>
      let t := trimMatchesChar apostChar (trimMatchesChar quoteChar (trimL tag))
      if t = [] then acc else acc ++ [String.mk t])
    []

/-- `HashMap::insert` modelled on an association list: replace the value
of an existing key in place, else append. -/
def insertReplace {α : Type} (k : String) (v : α) :
    List (String × α) → List (String × α)
  | [] => [(k, v)]
  | (k', v') :: rest =>
      if k' = k then (k, v) :: rest else (k', v') :: insertReplace k v rest

/-- `HashMap::get` modelled on an association list. -/
def lookupA {α : Type} (k : String) : List (String × α) → Option α
  | [] => none
  | (k', v) :: rest => if k' = k then some v else lookupA k rest

/-- One line of the front-matter region (`parser.rs:80-101`), folded over
the running `(frontmatter, tags)` state. -/
def fmLine (st : List (String × String) × List String) (rawLine : List Char) :
    List (String × String) × List String :=
  let line := trimL rawLine
  if line = [] ∨ line.head? = some '#' then st
  else
    match splitOnceChar ':' line with
    | none => st
    | some (k, v) =>
        let key := trimL k
        let value := trimL v
        if key = "tags".data then (st.1, st.2 ++ fmTagsOfValue value)
        else (insertReplace (String.mk key) (String.mk value) st.1, st.2)

/-- `extract_frontmatter` (`parser.rs:67-104`): returns the front-matter
map and the front-matter-declared tags. -/
def extractFrontmatter (content : List Char) :
    List (String × String) × List String :=
  let trimmed := trimLeadL content
  if startsDashes trimmed then
    let afterStart := trimmed.drop 3
    match findSub nlDashes afterStart with
    | none => ([], [])
    | some endIdx =>
        let yamlContent := afterStart.take endIdx
        (splitOnChar '\n' yamlContent).foldl fmLine ([], [])
  else ([], [])

/-- The body-region computation of `extract_inline_tags`
(`parser.rs:108-119`): skip the front-matter region; when the closing
delimiter is absent, fall back to the entire raw text. -/
def tagBody (content : List Char) : List Char :=
  let trimmed := trimLeadL content
  if startsDashes trimmed then
    let after := trimmed.drop 3
    match findSub nlDashes after with
    | some e => after.drop (e + 4)
    | none => content
  else content

/-- `str::split_whitespace`. -/
def splitWsGo : List Char → List Char → List (List Char)
  | [], acc => if acc = [] then [] else [acc.reverse]
  | c :: rest, acc =>
      if c.isWhitespace then
        if acc = [] then splitWsGo rest [] else acc.reverse :: splitWsGo rest []
      else splitWsGo rest (c :: acc)

def splitWs (l : List Char) : List (List Char) := splitWsGo l []

/-- Characters allowed at the end of an inline tag (`parser.rs:125`;
Rust's Unicode `is_alphanumeric` is modelled by `Char.isAlphanum`). -/
def isTagChar (c : Char) : Bool := c.isAlphanum || c = '-' || c = '_' || c = '/'

/-- Strip trailing non-tag characters (`trim_end_matches` with the
closure of `parser.rs:125`). -/
def dropTrailNonTag (l : List Char) : List Char :=
  (l.reverse.dropWhile (fun c => ¬ isTagChar c)).reverse

/-- `extract_inline_tags` (`parser.rs:107-132`): scan the body word by
word; a word starting with `#` and longer than one character yields a
candidate (leading `#`s stripped, trailing punctuation stripped) which is
appended only when non-empty and not already present. -/
def extractInlineTags (content : List Char) (tags0 : List String) : List String :=
  (splitWs (tagBody content)).foldl
    (fun tags word =>
      if word.head? = some '#' ∧ word.length > 1 then
        let tag := dropTrailNonTag (word.dropWhile (fun c => c = '#'))
        if tag ≠ [] ∧ ¬ tags.contains (String.mk tag) then tags ++ [String.mk tag]
        else tags
      else tags)
    tags0

/-- `ParsedNote` (`parser.rs:27-32`). -/
structure ParsedNote where
  links : List String
  tags : List String
  frontmatter : List (String × String)
  deriving Repr, DecidableEq

/-- `parse_note` (`parser.rs:5-25`): wikilinks, then front-matter (which
seeds the tag list), then inline tags appended to it. -/
def parseNote (content : String) : ParsedNote :=
  let cs := content.data
  let links := (extractWikilinks cs).map String.mk
  let fm := extractFrontmatter cs
  let tags := extractInlineTags cs fm.2
  ⟨links, tags, fm.1⟩

/-! ## Link graph (`linker.rs`) -/

/-- The stem of one path component, after Rust `Path::file_stem`: the
whole component when it has no dot or its only dot is leading, otherwise
the part before the final dot. -/
def stemOf (l : List Char) : List Char :=
  match l.reverse.findIdx? (fun c => c = '.') with
  | none => l
  | some j =>
      let i := l.length - 1 - j
      if i = 0 then l else l.take i

/-- `Path::new(path).file_stem().unwrap_or_default()` for forward-slash
paths: last non-empty component, with `.`/`..` (and the empty path)
giving the empty default. -/
def fileStem (p : String) : String :=
  match ((splitOnChar '/' p.data).filter (fun c => c ≠ [])).getLast? with
  | none => ""
  | some comp =>
      if comp = ['.'] ∨ comp = ['.', '.'] then "" else String.mk (stemOf comp)

/-- `GraphEdge` (`models/link.rs`). -/
structure GraphEdge where
  source : String
  target : String
  deriving Repr, DecidableEq

/-- `GraphNode` (`models/link.rs`). -/
structure GraphNode where
  id : String
  label : String
  path : String
  backlink_count : Nat
  deriving Repr, DecidableEq

/-- `GraphData` (`models/link.rs`). -/
structure GraphData where
  nodes : List GraphNode
  edges : List GraphEdge
  deriving Repr, DecidableEq

/-- `LinkGraph` state (`linker.rs:8-13`): both maps modelled as
association lists iterated in insertion order. -/
structure LinkGraph where
  outgoing : List (String × List String)
  nameToPath : List (String × String)
  deriving Repr, DecidableEq

/-- `LinkGraph::new`. -/
def LinkGraph.empty : LinkGraph := ⟨[], []⟩

/-- `register_note` (`linker.rs:24-34`). -/
def registerNote (path : String) (g : LinkGraph) : LinkGraph :=
  { g with nameToPath := insertReplace (fileStem path) path g.nameToPath }

/-- `update_links` (`linker.rs:37-42`): wholesale replacement. -/
def updateLinks (path : String) (targets : List String) (g : LinkGraph) :
    LinkGraph :=
  { g with outgoing := insertReplace path targets g.outgoing }

/-- `get_backlinks` (`linker.rs:56-71`): every source whose target list
contains the queried note's stem or the literal path. -/
def getBacklinks (g : LinkGraph) (path : String) : List String :=
  let name := fileStem path
  (g.outgoing.filter (fun p => p.2.any (fun t => t = name || t = path))).map
    (fun p => p.1)

/-- The `HashSet` node-id collection of `get_graph_data`
(`linker.rs:89-104`), modelled in first-insertion order. -/
def insertNew (x : String) (l : List String) : List String :=
  if l.contains x then l else l ++ [x]

/-- Number of outgoing-target occurrences equal to `n` (the
`backlink_counts` map of `get_graph_data`). -/
def countTarget (g : LinkGraph) (n : String) : Nat :=
  (g.outgoing.map (fun p => p.2.countP (fun t => t = n))).sum

/-- Node ids of `get_graph_data`: every source's stem and every raw
target, collected in scan order. -/
def graphNodeIds (g : LinkGraph) : List String :=
  g.outgoing.foldl
    (fun acc p => p.2.foldl (fun a t => insertNew t a) (insertNew (fileStem p.1) acc))
    []

/-- `get_graph_data` (`linker.rs:84-138`). -/
def getGraphData (g : LinkGraph) : GraphData :=
  let nodes := (graphNodeIds g).map
    (fun id =>
      GraphNode.mk id id ((lookupA id g.nameToPath).getD (id ++ ".md"))
        (countTarget g id))
  let edges := g.outgoing.flatMap
    (fun p => p.2.map (fun t => GraphEdge.mk (fileStem p.1) t))
  ⟨nodes, edges⟩

/-- Strict lexicographic comparison of strings by character (equal to
Rust's byte-wise `Ord` on UTF-8 strings, since UTF-8 preserves
code-point order). -/
def charListLt : List Char → List Char → Bool
  | [], [] => false
  | [], _ :: _ => true
  | _ :: _, [] => false
  | a :: as, b :: bs => if a < b then true else if b < a then false else charListLt as bs

def strLt (a b : String) : Bool := charListLt a.data b.data

/-- Lexicographic `(source, target)` comparison used to sort local-graph
edges (`linker.rs:217`). -/
def edgeLe (a b : GraphEdge) : Bool :=
  strLt a.source b.source ||
    (a.source = b.source &&
      (strLt a.target b.target || a.target = b.target))

/-- `Vec::dedup_by` on sorted edges (`linker.rs:218`): drop an element
equal to its retained predecessor. -/
def dedupAdjGo (prev : GraphEdge) : List GraphEdge → List GraphEdge
  | [] => []
  | e :: rest =>
      if e.source = prev.source ∧ e.target = prev.target then dedupAdjGo prev rest
      else e :: dedupAdjGo e rest

def dedupAdj : List GraphEdge → List GraphEdge
  | [] => []
  | e :: rest => e :: dedupAdjGo e rest

/-- Insertion sort by `edgeLe`.  `edgeLe` is a total order that is strict
on distinct edges, so this computes the same list as the Rust
`sort_by` (`linker.rs:217`) for any sorting algorithm. -/
def insertSorted (e : GraphEdge) : List GraphEdge → List GraphEdge
  | [] => [e]
  | x :: xs => if edgeLe e x then e :: x :: xs else x :: insertSorted e xs

def sortEdges : List GraphEdge → List GraphEdge
  | [] => []
  | e :: rest => insertSorted e (sortEdges rest)

/-- Sort then deduplicate edges, as `get_local_graph` does before
returning (`linker.rs:216-218`). -/
def sortDedupEdges (edges : List GraphEdge) : List GraphEdge :=
  dedupAdj (sortEdges edges)

/-- The outgoing targets reachable from a visited name in
`get_local_graph` (`linker.rs:162-163`): resolve the name to a path, then
look that path up in `outgoing`. -/
def outgoingOf (g : LinkGraph) (name : String) : List String :=
  match lookupA name g.nameToPath with
  | none => []
  | some np => (lookupA np g.outgoing).getD []

/-- The sources with an edge into `name` (`linker.rs:177-183`), by stem,
in scan order. -/
def incomingSources (g : LinkGraph) (name : String) : List String :=
  (g.outgoing.filter (fun p => p.2.contains name)).map (fun p => fileStem p.1)

/-- The traversal loop of `get_local_graph` (`linker.rs:155-193`),
fuel-indexed.  The stack is the Rust `to_visit` vector with its top at
the head (pushes are therefore appended reversed).  `none` means the
model's fuel ran out; `localFuel` below always suffices. -/
def localLoop (g : LinkGraph) (depth : Nat) :
    List (String × Nat) → Nat → List String → List GraphEdge →
    Option (List String × List GraphEdge)
  | [], _, visited, edges => some (visited, edges)
  | (name, d) :: rest, fuel, visited, edges =>
      match fuel with
      | 0 => none
      | fuel' + 1 =>
        if visited.contains name || d > depth then
          localLoop g depth rest fuel' visited edges
        else
          let visited' := visited ++ [name]
          let outTs := outgoingOf g name
          let outEdges := outTs.map (fun t => GraphEdge.mk name t)
          let inSrcs := incomingSources g name
          let inEdges := inSrcs.map (fun s => GraphEdge.mk s name)
          let outPushes :=
            if d < depth then outTs.map (fun t => (t, d + 1)) else []
          let inPushes :=
            if d < depth then
              (inSrcs.filter (fun s => ¬ visited'.contains s)).map
                (fun s => (s, d + 1))
            else []
          localLoop g depth ((outPushes ++ inPushes).reverse ++ rest) fuel'
            visited' (edges ++ outEdges ++ inEdges)

/-- Fuel that always lets `localLoop` run the Rust loop to completion:
the loop pops at most `1 + visits * (pushes per visit)` entries, with the
number of names and of push candidates both bounded by the graph size. -/
def localFuel (g : LinkGraph) : Nat :=
  let t := g.outgoing.foldl (fun n p => n + p.2.length + 1) 1
  t * t + 1

/-- `get_local_graph` (`linker.rs:141-221`): run the traversal, compute
backlink counts from the raw (pre-deduplication) edge list, build the
nodes from the visited set, then sort and deduplicate the edges. -/
def getLocalGraph (g : LinkGraph) (path : String) (depth : Nat) :
    Option GraphData :=
  let center := fileStem path
  match localLoop g depth [(center, 0)] (localFuel g) [] [] with
  | none => none
  | some (visited, edges0) =>
      let nodes := visited.map
        (fun id =>
          GraphNode.mk id id ((lookupA id g.nameToPath).getD (id ++ ".md"))
            ((edges0.filter (fun e => e.target = id)).length))
      some ⟨nodes, sortDedupEdges edges0⟩

/-! ## Orchestrator (`commands/vault.rs`) and snippet (`indexer.rs`) -/

/-- The title resolution of both indexing paths (`vault.rs:95-105`,
`vault.rs:147-156`): front-matter `title`, else the path's stem. -/
def titleOf (path : String) (parsed : ParsedNote) : String :=
  (lookupA "title" parsed.frontmatter).getD (fileStem path)

/-- `reindex_file` (`vault.rs:87-118`) after a successful file read, with
the search collaborator's `index_note` passed in as `upsert`.  The `?` on
the upsert (`vault.rs:108-111`) returns the error before the two graph
calls (`vault.rs:114-115`) run. -/
def reindexFile
    (upsert : String → String → String → List String → Except String Unit)
    (g : LinkGraph) (path : String) (content : String) :
    Except String Unit × LinkGraph :=
  let parsed := parseNote content
  let title := titleOf path parsed
  match upsert path title content parsed.tags with
  | .error e => (.error e, g)
  | .ok _ => (.ok (), updateLinks path parsed.links (registerNote path g))

/-- The per-note body of `index_vault` (`vault.rs:145-164`) after a
successful read: the upsert result is discarded (`let _ = ...`,
`vault.rs:158-160`) and the graph is updated regardless. -/
def indexVaultApply
    (upsert : String → String → String → List String → Except String Unit)
    (g : LinkGraph) (relPath : String) (content : String) : LinkGraph :=
  let parsed := parseNote content
  let title := titleOf relPath parsed
  let _ := upsert relPath title content parsed.tags
  updateLinks relPath parsed.links (registerNote relPath g)

/-- UTF-8 byte length of a Rust string (`body.len()`). -/
def utf8Len (l : List Char) : Nat := (l.map Char.utf8Size).sum

/-- Rust byte slicing `&body[..n]` on a string modelled as characters:
`none` when `n` is not a character boundary (the slice panics there). -/
def byteTake : Nat → List Char → Option (List Char)
  | n, [] => if n = 0 then some [] else none
  | n, c :: cs =>
      if n = 0 then some []
      else if c.utf8Size ≤ n then (byteTake (n - c.utf8Size) cs).map (c :: ·)
      else none

/-- The snippet construction of `search` (`indexer.rs:107-112`): bodies
longer than 200 bytes are cut at byte 200 and suffixed with `"..."`;
`none` models the byte-slice panic off a character boundary. -/
def makeSnippet (body : List Char) : Option (List Char) :=
  if utf8Len body > 200 then (byteTake 200 body).map (fun t => t ++ "...".data)
  else some body

/-! ## Concrete states used by the claim theorems -/

/-- The spec's running example: `a.md` and `b.md` registered, `a.md`
linking to `b`. -/
def gAB : LinkGraph :=
  updateLinks "a.md" ["b"] (registerNote "b.md" (registerNote "a.md" LinkGraph.empty))

/-- Five registered notes whose link structure makes the stack-based
local-graph traversal visit `e` at depth 2 but not at depth 3. -/
def g8 : LinkGraph :=
  { outgoing := [("a.md", ["b"]), ("b.md", []), ("c.md", ["b", "a", "d"]),
                 ("d.md", ["b"]), ("e.md", ["a"])],
    nameToPath := [("a", "a.md"), ("b", "b.md"), ("c", "c.md"),
                   ("d", "d.md"), ("e", "e.md")] }

/-- A search collaborator whose upsert always fails. -/
def failUpsert : String → String → String → List String → Except String Unit :=
  fun _ _ _ _ => .error "search index failure"

/-- A graph that already holds a stale parse of `a.md`. -/
def gOld : LinkGraph :=
  updateLinks "a.md" ["Old"] (registerNote "a.md" LinkGraph.empty)

/-! ## Claim theorems -/

/-- C1: the spec's apply-order contract says the Link Graph update
(`register_note` then `update_links`) is applied regardless of whether
the search upsert succeeds.  `index_vault` obeys it (the upsert result is
discarded), but `reindex_file` propagates the upsert error with `?`
before the graph calls run: after a failing upsert the graph still holds
the stale targets `["Old"]`, not the latest parse `["New"]`. -/
theorem c1_reindex_skips_graph_update_on_search_error :
    reindexFile failUpsert gOld "a.md" "[[New]]" =
      (Except.error "search index failure", gOld) ∧
    lookupA "a.md" (reindexFile failUpsert gOld "a.md" "[[New]]").2.outgoing =
      some ["Old"] ∧
    (parseNote "[[New]]").links = ["New"] ∧
    lookupA "a.md" (indexVaultApply failUpsert gOld "a.md" "[[New]]").outgoing =
      some ["New"] :=
  ⟨by decide, by decide, by decide, by decide⟩

/-- C2 counterexample: at depth 0 the local graph of `a.md` in `gAB` has
the edge `a → b`, so the claimed empty edge list is false. -/
theorem c2_counterexample_depth_zero_edges :
    (getLocalGraph gAB "a.md" 0).map GraphData.edges =
      some [GraphEdge.mk "a" "b"] ∧
    some [GraphEdge.mk "a" "b"] ≠ some ([] : List GraphEdge) :=
  ⟨by decide, by decide⟩

/-- C3 counterexample: a front-matter tag list with a repeated entry is
pushed without deduplication, so the parsed tags contain a duplicate. -/
theorem c3_counterexample_fm_tags_duplicated :
    (parseNote "---\ntags: [a, a]\n---\nx").tags = ["a", "a"] ∧
    ¬ (parseNote "---\ntags: [a, a]\n---\nx").tags.Nodup :=
  ⟨by decide, by decide⟩

/-- C5: `get_backlinks p` returns exactly the sources whose target list
contains `p`'s stem or the literal `p`; on the spec's example state,
`get_backlinks "b.md" = ["a.md"]` and a note with no incoming links gets
the empty sequence. -/
theorem c5_get_backlinks_characterization :
    (∀ (g : LinkGraph) (p s : String),
      s ∈ getBacklinks g p ↔
        ∃ ts, (s, ts) ∈ g.outgoing ∧ ∃ t ∈ ts, t = fileStem p ∨ t = p) ∧
    getBacklinks gAB "b.md" = ["a.md"] ∧
    getBacklinks gAB "a.md" = [] := by
  refine ⟨?_, by decide, by decide⟩
  intro g p s
  simp only [getBacklinks, List.mem_map, List.mem_filter, List.any_eq_true,
    Bool.or_eq_true, decide_eq_true_eq]
  constructor
  · rintro ⟨⟨s', ts⟩, ⟨hmem, ht⟩, rfl⟩
    exact ⟨ts, hmem, ht⟩
  · rintro ⟨ts, hmem, ht⟩
    exact ⟨(s, ts), ⟨hmem, ht⟩, rfl⟩

/-- Replacing a key twice with the same value is the same as replacing it
once. -/
theorem insertReplace_insertReplace {α : Type} (k : String) (v : α)
    (m : List (String × α)) :
    insertReplace k v (insertReplace k v m) = insertReplace k v m := by
  induction m with
  | nil => simp [insertReplace]
  | cons h t ih =>
    obtain ⟨k', v'⟩ := h
    by_cases hk : k' = k
    · simp [insertReplace, hk]
    · simp [insertReplace, hk, ih]

/-- C7: `update_links` is idempotent: a second identical call leaves the
`get_graph_data` edge set (indeed the whole graph data) unchanged. -/
theorem c7_update_links_idempotent (g : LinkGraph) (p : String)
    (ts : List String) :
    (getGraphData (updateLinks p ts (updateLinks p ts g))).edges =
      (getGraphData (updateLinks p ts g)).edges := by
  have h : updateLinks p ts (updateLinks p ts g) = updateLinks p ts g := by
    simp [updateLinks, insertReplace_insertReplace]
  rw [h]

/-- C8 counterexample: on `g8`, the local graph of `b.md` contains node
`e` at depth 2 but not at depth 3 — the node set is not monotone in the
depth. -/
theorem c8_counterexample_depth_three_loses_node :
    (getLocalGraph g8 "b.md" 2).map (fun gd => gd.nodes.map GraphNode.id) =
      some ["b", "d", "c", "a", "e"] ∧
    (getLocalGraph g8 "b.md" 3).map (fun gd => gd.nodes.map GraphNode.id) =
      some ["b", "d", "c", "a"] ∧
    "e" ∈ ["b", "d", "c", "a", "e"] ∧ "e" ∉ ["b", "d", "c", "a"] :=
  ⟨by decide, by decide, by decide, by decide⟩

set_option maxRecDepth 8000 in
/-- C9: the snippet of `search` slices the body at byte 200, which
panics (`none` in the model) when byte 200 is inside a multi-byte
character, and otherwise yields 203 characters for a long ASCII body —
not the claimed total, at-most-200-character construction. -/
theorem c9_snippet_panics_and_overlength :
    makeSnippet (List.replicate 199 'a' ++ ['é']) = none ∧
    makeSnippet (List.replicate 201 'a') =
      some (List.replicate 200 'a' ++ "...".data) ∧
    (List.replicate 200 'a' ++ "...".data).length = 203 :=
  ⟨by decide, by decide, by decide⟩

/-- C4: when the text starts (after leading whitespace) with `---` but no
later line starts with `---` (no occurrence of `"\n---"` after the
opener), the parse yields an empty front-matter map, no front-matter
tags, and the inline-tag body falls back to the entire raw text. -/
theorem c4_unclosed_frontmatter_falls_back (content : String)
    (h1 : startsDashes (trimLeadL content.data) = true)
    (h2 : findSub nlDashes ((trimLeadL content.data).drop 3) = none) :
    (parseNote content).frontmatter = [] ∧
    (parseNote content).tags = extractInlineTags content.data [] ∧
    tagBody content.data = content.data := by
  have hf : extractFrontmatter content.data = ([], []) := by
    simp only [extractFrontmatter, h1, if_true, h2]
  refine ⟨?_, ?_, ?_⟩
  · simp only [parseNote, hf]
  · simp only [parseNote, hf]
  · simp only [tagBody, h1, if_true, h2]

/-- Witness for `c4_unclosed_frontmatter_falls_back` at a concrete
unclosed-front-matter text. -/
theorem c4_witness :
    startsDashes (trimLeadL ("---\n#hello world" : String).data) = true ∧
    findSub nlDashes ((trimLeadL ("---\n#hello world" : String).data).drop 3) =
      none ∧
    ((parseNote "---\n#hello world").frontmatter = [] ∧
      (parseNote "---\n#hello world").tags =
        extractInlineTags ("---\n#hello world" : String).data [] ∧
      tagBody ("---\n#hello world" : String).data =
        ("---\n#hello world" : String).data) :=
  ⟨by decide, by decide,
    c4_unclosed_frontmatter_falls_back "---\n#hello world" (by decide) (by decide)⟩

/-- The inline-tag fold only ever appends a tag that is not already
present, so it preserves freedom from duplicates. -/
theorem extractInlineTags_nodup (content : List Char) (tags0 : List String)
    (h : tags0.Nodup) : (extractInlineTags content tags0).Nodup := by
  unfold extractInlineTags
  generalize splitWs (tagBody content) = ws
  induction ws generalizing tags0 with
  | nil => simpa using h
  | cons w ws ih =>
    simp only [List.foldl_cons]
    apply ih
    by_cases h1 : w.head? = some '#' ∧ w.length > 1
    · simp only [if_pos h1]
      by_cases h2 : dropTrailNonTag (w.dropWhile (fun c => c = '#')) ≠ [] ∧
          ¬ tags0.contains
            (String.mk (dropTrailNonTag (w.dropWhile (fun c => c = '#'))))
      · rw [if_pos h2]
        have hnotmem :
            String.mk (dropTrailNonTag (w.dropWhile (fun c => c = '#'))) ∉ tags0 := by
          intro hmem
          exact h2.2 (List.elem_iff.mpr hmem)
        simp [List.nodup_append, h, hnotmem]
      · rw [if_neg h2]
        exact h
    · simp only [if_neg h1]
      exact h

/-- C3 (amended): the inline-tag phase deduplicates against the
accumulated tag sequence, so the parsed tags are duplicate-free whenever
the front-matter-declared tags are (front-matter tags themselves are
pushed without deduplication). -/
theorem c3_tags_nodup_of_fm_nodup (content : String)
    (h : ((extractFrontmatter content.data).2).Nodup) :
    (parseNote content).tags.Nodup := by
  simpa only [parseNote] using extractInlineTags_nodup content.data _ h

/-- Witness for `c3_tags_nodup_of_fm_nodup` at a note with distinct
front-matter tags and an overlapping inline tag. -/
theorem c3_witness :
    ((extractFrontmatter ("---\ntags: [a, b]\n---\n#a #c" : String).data).2).Nodup ∧
    (parseNote "---\ntags: [a, b]\n---\n#a #c").tags.Nodup :=
  ⟨by decide, c3_tags_nodup_of_fm_nodup "---\ntags: [a, b]\n---\n#a #c" (by decide)⟩

/-- The guarded emission of `wlScan` equals the unguarded spec emission
filtered to non-empty targets. -/
theorem mkTarget_emit_eq (acc : List Char) :
    (match mkTarget acc with
     | some t => [t]
     | none => ([] : List (List Char))) =
      [trimL (beforePipe acc)].filter (fun t => t ≠ []) := by
  unfold mkTarget
  by_cases h0 : acc = []
  · subst h0
    decide
  · rw [if_neg h0]
    by_cases ht : trimL (beforePipe acc) = []
    · simp [ht]
    · simp [ht]

/-- The code's scan emits exactly the spec-described targets with the
empty ones dropped, in every scanner state. -/
theorem wlScan_eq_filter (l : List Char) :
    ∀ m : WlMode, wlScan l m = (refWlScan l m).filter (fun t => t ≠ []) := by
  induction l with
  | nil => intro m; simp [wlScan, refWlScan]
  | cons c rest ih =>
    intro m
    cases m with
    | outside => simp only [wlScan, refWlScan]; exact ih _
    | sawOpen => simp only [wlScan, refWlScan]; exact ih _
    | inside acc => simp only [wlScan, refWlScan]; exact ih _
    | sawClose acc =>
      simp only [wlScan, refWlScan]
      by_cases hc : c = ']'
      · rw [if_pos hc, if_pos hc, mkTarget_emit_eq, ih]
        simp only [List.filter_cons]
        by_cases ht : trimL (beforePipe acc) = [] <;> simp [ht]
      · rw [if_neg hc, if_neg hc]
        exact ih _

/-- C6 counterexample: on `[[|x]]` the code emits no link, while the
claim's description (trimmed substring before the first pipe of each
closed wikilink) yields the empty string. -/
theorem c6_counterexample_empty_target :
    (parseNote "[[|x]]").links = [] ∧
    (refWikilinks ("[[|x]]" : String).data).map String.mk = [""] ∧
    (parseNote "[[|x]]").links ≠
      (refWikilinks ("[[|x]]" : String).data).map String.mk :=
  ⟨by decide, by decide, by decide⟩

/-- C6 (amended): the links are the trimmed before-pipe substrings of the
closed `[[...]]` sequences in scan order, except that empty (or
whitespace-only) targets are dropped; on the spec's example the links are
`["World", "Another Note"]`. -/
theorem c6_links_are_nonempty_ref_targets :
    (∀ content : String,
      (parseNote content).links =
        ((refWikilinks content.data).filter (fun t => t ≠ [])).map String.mk) ∧
    (parseNote "Hello [[World]] and [[Another Note|display]]").links =
      ["World", "Another Note"] := by
  refine ⟨?_, by decide⟩
  intro content
  simp only [parseNote, extractWikilinks, refWikilinks, wlScan_eq_filter]

/-- C10: no parsed link target is the empty string: `[[]]`, `[[   ]]` and
`[[|display]]` contribute no entry. -/
theorem c10_no_empty_link_targets (content : String) :
    ((parseNote content).links).contains "" = false := by
  have h : "" ∉ (parseNote content).links := by
    simp only [parseNote, extractWikilinks, wlScan_eq_filter]
    intro hmem
    simp only [List.mem_map, List.mem_filter] at hmem
    obtain ⟨t, ⟨_, hne⟩, hmk⟩ := hmem
    have ht : t = [] := by
      have := congrArg String.data hmk
      simpa using this
    simp [ht] at hne
  simpa using h

/-- Witness for `c10_no_empty_link_targets` on a text with empty-target
wikilink forms. -/
theorem c10_witness :
    ((parseNote "[[]] [[   ]] [[|display]] [[ok]]").links).contains "" = false :=
  c10_no_empty_link_targets "[[]] [[   ]] [[|display]] [[ok]]"

/-- The edges incident to the center that the depth-0 traversal gathers:
the center's outgoing links (through its registered path) and the
incoming links from sources targeting its name. -/
def depthZeroEdges (g : LinkGraph) (center : String) : List GraphEdge :=
  (outgoingOf g center).map (fun t => GraphEdge.mk center t) ++
    (incomingSources g center).map (fun s => GraphEdge.mk s center)

/-- C2 (amended): at depth 0 the local graph's node set is exactly the
singleton of the center's derived name, and its edge list is the sorted
deduplication of the center's incident edges — not empty in general. -/
theorem c2_local_graph_depth_zero (g : LinkGraph) (p : String) :
    getLocalGraph g p 0 =
      some ⟨[GraphNode.mk (fileStem p) (fileStem p)
               ((lookupA (fileStem p) g.nameToPath).getD (fileStem p ++ ".md"))
               ((depthZeroEdges g (fileStem p)).filter
                  (fun e => e.target = fileStem p)).length],
            sortDedupEdges (depthZeroEdges g (fileStem p))⟩ := by
  obtain ⟨m, hm⟩ : ∃ m, localFuel g = m + 1 := ⟨_, rfl⟩
  have hstep : localLoop g 0 [(fileStem p, 0)] (localFuel g) [] [] =
      some ([fileStem p], depthZeroEdges g (fileStem p)) := by
    rw [hm]
    simp [localLoop, depthZeroEdges]
  simp only [getLocalGraph, hstep, List.map_cons, List.map_nil]

/-- Whatever the traversal loop does, the visited accumulator only ever
grows: every name visited on entry is in the final visited list. -/
theorem localLoop_visited_mono (g : LinkGraph) (depth : Nat) :
    ∀ (fuel : Nat) (stack : List (String × Nat)) (visited : List String)
      (edges : List GraphEdge) (res : List String × List GraphEdge),
      localLoop g depth stack fuel visited edges = some res →
      ∀ x ∈ visited, x ∈ res.1 := by
  intro fuel
  induction fuel with
  | zero =>
    intro stack visited edges res h x hx
    cases stack with
    | nil =>
      simp only [localLoop] at h
      cases h
      exact hx
    | cons top rest => simp [localLoop] at h
  | succ fuel ih =>
    intro stack visited edges res h x hx
    cases stack with
    | nil =>
      simp only [localLoop] at h
      cases h
      exact hx
    | cons top rest =>
      obtain ⟨name, d⟩ := top
      simp only [localLoop] at h
      by_cases hc : (visited.contains name || decide (d > depth)) = true
      · rw [if_pos hc] at h
        exact ih _ _ _ _ h x hx
      · rw [if_neg hc] at h
        exact ih _ _ _ _ h x (List.mem_append_left _ hx)

/-- C8 (amended): the node set is not monotone in the depth (see the
counterexample), but every local graph does contain the center's derived
name among its node ids, at every depth and for every graph state. -/
theorem c8_center_always_in_nodes (g : LinkGraph) (p : String) (d : Nat)
    (gd : GraphData) (h : getLocalGraph g p d = some gd) :
    fileStem p ∈ gd.nodes.map GraphNode.id := by
  simp only [getLocalGraph] at h
  cases hl : localLoop g d [(fileStem p, 0)] (localFuel g) [] [] with
  | none => simp only [hl] at h; cases h
  | some pr =>
    obtain ⟨visited, edges0⟩ := pr
    simp only [hl, Option.some.injEq] at h
    have hmem : fileStem p ∈ visited := by
      obtain ⟨m, hm⟩ : ∃ m, localFuel g = m + 1 := ⟨_, rfl⟩
      rw [hm] at hl
      simp only [localLoop] at hl
      simp at hl
      exact localLoop_visited_mono g d m _ _ _ _ hl (fileStem p) (by simp)
    subst h
    simpa using hmem

/-- Witness for `c8_center_always_in_nodes` on the empty graph at
depth 0. -/
theorem c8_witness :
    fileStem "a.md" ∈
      (GraphData.mk [GraphNode.mk "a" "a" "a.md" 0] []).nodes.map GraphNode.id :=
  c8_center_always_in_nodes LinkGraph.empty "a.md" 0
    (GraphData.mk [GraphNode.mk "a" "a" "a.md" 0] []) (by decide)

end Commitpaper
